/-
Verification of the workout-analytics core (analytics.py / cli.py).

The Python code is shallowly embedded: weights and 1RM estimates are modelled
as exact rationals (`ℚ`), rep counts as integers, dates as the values produced
by the surrounding date-parsing plumbing (an `ℤ` ordinal, or a parameterised
parser `String → Option ℤ` where the code itself parses).  Python's `None`
sentinel becomes `Option`, dictionaries with insertion order become
association lists, and Python's stable `sorted` becomes insertion sort keyed
by date (any stable sort by the same key produces the same list).
-/
import Mathlib

namespace WorkoutTracker

/-! ## Data model (models.py) -/

/-- One recorded set: `models.SetEntry`.  `rir` is carried but never read by
the analytics code. -/
structure SetEntry where
  reps : ℤ
  weight : ℚ
  rir : Option ℤ := none
deriving DecidableEq

/-- One exercise entry: `models.ExerciseEntry`. -/
structure ExerciseEntry where
  exercise_name : String
  muscle_group : String
  sets : List SetEntry
  rest_time : Option ℤ := none
deriving DecidableEq

/-- One workout record: `models.WorkoutEntry` / the stored workout dict.  The
date is kept as the stored string, since the analytics code parses it itself. -/
structure Workout where
  workout_title : String
  workout_date : String
  exercises : List ExerciseEntry
  workout_time : Option ℤ := none
deriving DecidableEq

/-! ## Estimator (analytics.py, `estimate_1rm`) -/

/-- Epley formula: `estimate_1rm(weight, reps) = weight * (1 + reps / 30)`. -/
def estimate_1rm (weight : ℚ) (reps : ℤ) : ℚ :=
  weight * (1 + (reps : ℚ) / 30)

/-! ## Best-set selector (analytics.py, `best_1rm_for_workout`) -/

/-- Python's `str.lower()` on one character (ASCII range; exercise names in
this data set are ASCII). -/
def charToLower (c : Char) : Char :=
  if 'A' ≤ c ∧ c ≤ 'Z' then Char.ofNat (c.toNat + 32) else c

/-- Python's `str.lower()`: lowercase every character. -/
def strToLower (s : String) : String := ⟨s.data.map charToLower⟩

/-- Body of the inner `for s in e["sets"]` loop: `best` is updated when the
new estimate is strictly larger (or when `best` is still `None`). -/
def bestFoldSet (best : Option ℚ) (s : SetEntry) : Option ℚ :=
  match best with
  | none => some (estimate_1rm s.weight s.reps)
  | some b => if b < estimate_1rm s.weight s.reps then some (estimate_1rm s.weight s.reps) else some b

/-- Body of the outer `for e in workout_dict["exercises"]` loop: only entries
whose lowercased name equals the lowercased query are scanned. -/
def bestFoldExercise (exercise_name : String) (best : Option ℚ) (e : ExerciseEntry) : Option ℚ :=
  if strToLower e.exercise_name = strToLower exercise_name then e.sets.foldl bestFoldSet best
  else best

/-- The selector `best_1rm_for_workout`: maximum estimate over matching entries, `None`
when nothing matched. -/
def best_1rm_for_workout (w : Workout) (exercise_name : String) : Option ℚ :=
  w.exercises.foldl (bestFoldExercise exercise_name) none

/-- Specification helper: the list of all Epley estimates of all sets of all
exercise entries matching the query case-insensitively, in program order. -/
def matchingEsts (w : Workout) (exercise_name : String) : List ℚ :=
  (w.exercises.filter (fun e => strToLower e.exercise_name == strToLower exercise_name)).flatMap
    (fun e => e.sets.map (fun s => estimate_1rm s.weight s.reps))

/-- One step of running-maximum tracking on plain values, the common core of
`bestFoldSet` (it is `bestFoldSet` with the estimate already computed). -/
def maxStep (best : Option ℚ) (x : ℚ) : Option ℚ :=
  match best with
  | none => some x
  | some b => if b < x then some x else some b

/-! ## Time-series builder (analytics.py, `get_1rm_timeseries`)

`datetime.fromisoformat` belongs to the date plumbing; it is modelled as a
parameter `parseIso : String → ℤ` mapping a stored date string to its ordinal.
Python's `if val:` keeps only truthy values, i.e. drops both `None` and `0.0`.
`sorted(series, key=lambda x: x[0])` is a stable sort on the date component,
modelled by `List.insertionSort` on the date-ordering relation `dateLe`. -/

/-- The sort key relation used by `sorted(series, key=lambda x: x[0])`:
compare points by date only. -/
def dateLe (a b : ℤ × ℚ) : Prop := a.1 ≤ b.1

instance : DecidableRel dateLe := fun a b => inferInstanceAs (Decidable (a.1 ≤ b.1))

instance : IsTotal (ℤ × ℚ) dateLe := ⟨fun a b => Int.le_total a.1 b.1⟩

instance : IsTrans (ℤ × ℚ) dateLe := ⟨fun _ _ _ h1 h2 => le_trans h1 h2⟩

/-- Body of the `for w in workouts` loop: append `(date, val)` exactly when
`best_1rm_for_workout` is truthy (Python's `if val:` drops `None` and `0.0`). -/
def rawStep (parseIso : String → ℤ) (exercise_name : String)
    (series : List (ℤ × ℚ)) (w : Workout) : List (ℤ × ℚ) :=
  match best_1rm_for_workout w exercise_name with
  | none => series
  | some v => if v = 0 then series else series ++ [(parseIso w.workout_date, v)]

/-- The point one workout contributes to the series, if any. -/
def seriesPoint (parseIso : String → ℤ) (exercise_name : String) (w : Workout) :
    Option (ℤ × ℚ) :=
  match best_1rm_for_workout w exercise_name with
  | none => none
  | some v => if v = 0 then none else some (parseIso w.workout_date, v)

/-- The `series` list as built by the workout loop, before sorting. -/
def rawSeries (parseIso : String → ℤ) (workouts : List Workout) (exercise_name : String) :
    List (ℤ × ℚ) :=
  workouts.foldl (rawStep parseIso exercise_name) []

/-- The builder `get_1rm_timeseries`: build the raw series, then stably sort it by date. -/
def get_1rm_timeseries (parseIso : String → ℤ) (workouts : List Workout)
    (exercise_name : String) : List (ℤ × ℚ) :=
  List.insertionSort dateLe (rawSeries parseIso workouts exercise_name)

/-! ## Trend analyzer (analytics.py `detect_plateau`, cli.py
`detect_plateau_and_growth`)

`np.polyfit(x, y, 1)` with `x = 0, 1, …, n-1` computes the ordinary
least-squares line; in exact arithmetic its slope is the normal-equation
quotient `(n·Σxy − Σx·Σy) / (n·Σx² − (Σx)²)`.  The sums are embedded exactly;
the least-squares minimality of this slope is proved below
(`sse_polyfit_min`). -/

/-- Sum `Σ x` for `x = range n`. -/
def sX (n : ℕ) : ℚ := ∑ i ∈ Finset.range n, (i : ℚ)

/-- Sum `Σ x²` for `x = range n`. -/
def sXX (n : ℕ) : ℚ := ∑ i ∈ Finset.range n, (i : ℚ) ^ 2

/-- Sum `Σ y` over the value list. -/
def sY (ys : List ℚ) : ℚ := ∑ i ∈ Finset.range ys.length, ys.getD i 0

/-- Sum `Σ x·y` over the value list with `x = 0, 1, …`. -/
def sXY (ys : List ℚ) : ℚ := ∑ i ∈ Finset.range ys.length, (i : ℚ) * ys.getD i 0

/-- Slope of the degree-1 least-squares fit `np.polyfit(arange(n), y, 1)[0]`,
in exact arithmetic. -/
def polyfitSlope (ys : List ℚ) : ℚ :=
  ((ys.length : ℚ) * sXY ys - sX ys.length * sY ys) /
    ((ys.length : ℚ) * sXX ys.length - sX ys.length ^ 2)

/-- Intercept of the same least-squares fit (computed by `np.polyfit` as well;
the Python callers discard it). -/
def polyfitIntercept (ys : List ℚ) : ℚ :=
  (sY ys - polyfitSlope ys * sX ys.length) / (ys.length : ℚ)

/-- Sum of squared errors of the line `y = a·x + b` against the value list
over x-coordinates `0, 1, …, n-1`: the functional `np.polyfit` minimises. -/
def sse (ys : List ℚ) (a b : ℚ) : ℚ :=
  ∑ i ∈ Finset.range ys.length, (ys.getD i 0 - (a * (i : ℚ) + b)) ^ 2

/-- The analyzer `detect_plateau(timeseries, min_points=5, slope_threshold=0.01)`:
below `min_points` return `(False, None)`; otherwise fit and classify with the
asymmetric strict test `slope < slope_threshold`. -/
def detect_plateau (timeseries : List (ℤ × ℚ)) (min_points : ℕ := 5)
    (slope_threshold : ℚ := 1 / 100) : Bool × Option ℚ :=
  if timeseries.length < min_points then (false, none)
  else
    let slope := polyfitSlope (timeseries.map Prod.snd)
    (decide (slope < slope_threshold), some slope)

/-- The variant `detect_plateau_and_growth` (cli.py): below 3 points return `(False, 0.0)`;
otherwise sort by date, fit, classify with the symmetric test
`abs(slope) < 0.01`, and return `growth_per_month = slope * 4`. -/
def detect_plateau_and_growth (one_rm_timeseries : List (ℤ × ℚ)) : Bool × ℚ :=
  if one_rm_timeseries.length < 3 then (false, 0)
  else
    let sorted_series := List.insertionSort dateLe one_rm_timeseries
    let slope := polyfitSlope (sorted_series.map Prod.snd)
    (decide (|slope| < 1 / 100), slope * 4)

/-! ## Muscle-group aggregation (cli.py, `view_performance_by_muscle`)

The accumulator is `defaultdict(lambda: dict(exercises=defaultdict(list),
total_volume=0, max_1rm=0, one_rm_timeseries=[]))`.  Python dicts preserve
insertion order and a `defaultdict` creates the key on first access, so the
outer dict is modelled as an association list where `updateMD` creates a fresh
entry at the end when the key is absent; likewise for the inner
`defaultdict(list)`.  `datetime.strptime(date_str, "%d, %B, %Y")` is modelled
as a parameter `parse : String → Option ℤ` (`none` = `ValueError`, which the
`except` clause turns into `continue`). -/

/-- The per-muscle record held by the aggregation dictionary. -/
structure MuscleData where
  exercises : List (String × List ℚ)
  total_volume : ℚ
  max_1rm : ℚ
  one_rm_timeseries : List (ℤ × ℚ)
deriving DecidableEq

/-- The fresh value `defaultdict` builds on first access to a muscle group. -/
def emptyMuscleData : MuscleData :=
  { exercises := [], total_volume := 0, max_1rm := 0, one_rm_timeseries := [] }

/-- Ordered-dictionary lookup. -/
def lookupMD : List (String × MuscleData) → String → Option MuscleData
  | [], _ => none
  | (k, v) :: rest, m => if k = m then some v else lookupMD rest m

/-- Reading `muscle_data[muscle]` (with the defaultdict default). -/
def getMD (st : List (String × MuscleData)) (m : String) : MuscleData :=
  (lookupMD st m).getD emptyMuscleData

/-- A mutation `muscle_data[muscle] = f(muscle_data[muscle])`: updates in
place when the key exists, otherwise appends the key with `f` applied to the
defaultdict default (Python dicts keep insertion order). -/
def updateMD : List (String × MuscleData) → String → (MuscleData → MuscleData) →
    List (String × MuscleData)
  | [], m, f => [(m, f emptyMuscleData)]
  | (k, v) :: rest, m, f =>
      if k = m then (k, f v) :: rest else (k, v) :: updateMD rest m f

/-- Appending `muscle_data[muscle]['exercises'][exercise_name].append(one_rm)` on the
inner `defaultdict(list)`. -/
def appendEx : List (String × List ℚ) → String → ℚ → List (String × List ℚ)
  | [], name, v => [(name, [v])]
  | (k, l) :: rest, name, v =>
      if k = name then (k, l ++ [v]) :: rest else (k, l) :: appendEx rest name v

/-- Volume of one set: `weight * reps`. -/
def setVolume (s : SetEntry) : ℚ := s.weight * (s.reps : ℚ)

/-- Body of `for s in exercise['sets']`: accumulate volume, append the per-set
1RM estimate under the exercise name, raise the muscle's max 1RM, and track
the best 1RM of this workout (the second accumulator component). -/
def processSet (muscle exercise_name : String)
    (acc : List (String × MuscleData) × ℚ) (s : SetEntry) :
    List (String × MuscleData) × ℚ :=
  let volume := setVolume s
  let st1 := updateMD acc.1 muscle
    (fun md => { md with total_volume := md.total_volume + volume })
  let one_rm := estimate_1rm s.weight s.reps
  let st2 := updateMD st1 muscle
    (fun md => { md with exercises := appendEx md.exercises exercise_name one_rm })
  let st3 := updateMD st2 muscle
    (fun md => if md.max_1rm < one_rm then { md with max_1rm := one_rm } else md)
  (st3, if acc.2 < one_rm then one_rm else acc.2)

/-- Body of `for exercise in workout['exercises']`: run the set loop with
`best_1rm_workout = 0`, then append `(date, best)` to the muscle's time-series
when the best is strictly positive. -/
def processExercise (d : ℤ) (st : List (String × MuscleData)) (e : ExerciseEntry) :
    List (String × MuscleData) :=
  let acc := e.sets.foldl (processSet e.muscle_group e.exercise_name) (st, 0)
  if 0 < acc.2 then
    updateMD acc.1 e.muscle_group
      (fun md => { md with one_rm_timeseries := md.one_rm_timeseries ++ [(d, acc.2)] })
  else acc.1

/-- Body of `for workout in workouts`: parse the stored date; on a
`ValueError`, `continue` (skip the whole workout). -/
def processWorkout (parse : String → Option ℤ) (st : List (String × MuscleData))
    (w : Workout) : List (String × MuscleData) :=
  match parse w.workout_date with
  | none => st
  | some d => w.exercises.foldl (processExercise d) st

/-- The aggregation phase of `view_performance_by_muscle` (cli.py lines
201-245): fold all workouts into the empty dictionary. -/
def aggregateByMuscle (parse : String → Option ℤ) (ws : List Workout) :
    List (String × MuscleData) :=
  ws.foldl (processWorkout parse) []

/-- Total volume recorded for a muscle group (0 when the key is absent). -/
def totalVolumeOf (st : List (String × MuscleData)) (m : String) : ℚ :=
  (getMD st m).total_volume

/-- The muscle-group keys present in the aggregation dictionary. -/
def keysOf (st : List (String × MuscleData)) : List String := st.map Prod.fst

/-- Specification helper: the total `weight * reps` over every set of every
exercise entry of `w` tagged with muscle group `m`. -/
def workoutVolume (m : String) (w : Workout) : ℚ :=
  (w.exercises.map (fun e =>
    if e.muscle_group = m then (e.sets.map setVolume).sum else 0)).sum

/-- Specification helper: the total `weight * reps` over every set of every
exercise entry tagged with muscle group `m`, over all workouts. -/
def specVolume (ws : List Workout) (m : String) : ℚ :=
  (ws.map (workoutVolume m)).sum

/-! ## Concrete inputs used to instantiate the theorems -/

/-- A bench-press entry with two sets (estimates 116⅔ and 121). -/
def exBench : ExerciseEntry :=
  { exercise_name := "Bench Press", muscle_group := "Chest",
    sets := [{ reps := 5, weight := 100 }, { reps := 3, weight := 110 }] }

/-- A workout containing `exBench`. -/
def wBench : Workout :=
  { workout_title := "push", workout_date := "2024-01-01", exercises := [exBench] }

/-- A flat five-point series. -/
def tsFlat : List (ℤ × ℚ) := [(0, 5), (1, 5), (2, 5), (3, 5), (4, 5)]

/-- A two-point series (below the 3-point minimum of the cli.py variant). -/
def tsShort : List (ℤ × ℚ) := [(0, 100), (1, 100)]

/-- A three-point series growing by 2 per session. -/
def tsGrow : List (ℤ × ℚ) := [(0, 100), (1, 102), (2, 104)]

/-- A date parser that accepts every string (all stored dates well-formed). -/
def parseAll : String → Option ℤ := fun _ => some 0

/-- A leg workout with a single 100 kg × 10 set. -/
def wLegs : Workout :=
  { workout_title := "legs", workout_date := "01, January, 2024",
    exercises := [{ exercise_name := "Squat", muscle_group := "Legs",
                    sets := [{ reps := 10, weight := 100 }] }] }

/-- A leg workout whose only set has zero weight (volume 0). -/
def wLegsZero : Workout :=
  { workout_title := "legs", workout_date := "01, January, 2024",
    exercises := [{ exercise_name := "Squat", muscle_group := "Legs",
                    sets := [{ reps := 5, weight := 0 }] }] }

/-! ## C5: the Epley estimator -/

/-- C5: for weight ≥ 0 and integer reps ≥ 0, `estimate_1rm` equals
`weight * (1 + reps / 30)` with no error conditions; `estimate_1rm w 0 = w`,
`estimate_1rm 0 r = 0`, the result is monotone non-decreasing in weight and in
reps for fixed weight, and is always at least the input weight. -/
theorem estimate_1rm_spec (w : ℚ) (r : ℤ) (hw : 0 ≤ w) (hr : 0 ≤ r) :
    estimate_1rm w r = w * (1 + (r : ℚ) / 30)
      ∧ estimate_1rm w 0 = w
      ∧ estimate_1rm 0 r = 0
      ∧ (∀ w' : ℚ, w ≤ w' → estimate_1rm w r ≤ estimate_1rm w' r)
      ∧ (∀ r' : ℤ, r ≤ r' → estimate_1rm w r ≤ estimate_1rm w r')
      ∧ w ≤ estimate_1rm w r := by
  have hrq : (0 : ℚ) ≤ (r : ℚ) := by exact_mod_cast hr
  refine ⟨rfl, by simp [estimate_1rm], by simp [estimate_1rm], ?_, ?_, ?_⟩
  · intro w' hww
    unfold estimate_1rm
    nlinarith
  · intro r' hrr
    have hrq' : (r : ℚ) ≤ (r' : ℚ) := by exact_mod_cast hrr
    unfold estimate_1rm
    nlinarith
  · unfold estimate_1rm
    nlinarith

/-- Instantiation of `estimate_1rm_spec` at weight 100, reps 5. -/
theorem estimate_1rm_spec_witness :
    estimate_1rm 100 5 = 100 * (1 + (5 : ℚ) / 30) ∧ (100 : ℚ) ≤ estimate_1rm 100 5 := by
  have h := estimate_1rm_spec 100 5 (by norm_num) (by norm_num)
  exact ⟨h.1, h.2.2.2.2.2⟩

/-! ## C6: `detect_plateau` below `min_points` -/

/-- C6: on a series with fewer than `min_points` entries `detect_plateau`
returns `(False, None)` regardless of the values supplied (and, being a total
function of its input, raises no exception). -/
theorem detect_plateau_insufficient (ts : List (ℤ × ℚ)) (mp : ℕ) (thr : ℚ)
    (h : ts.length < mp) : detect_plateau ts mp thr = (false, none) := by
  simp [detect_plateau, h]

/-- Instantiation of `detect_plateau_insufficient` on a wild 4-point series. -/
theorem detect_plateau_insufficient_witness :
    detect_plateau [(0, 100), (1, 200), (2, 50), (3, 999)] 5 (1 / 100) = (false, none) :=
  detect_plateau_insufficient [(0, 100), (1, 200), (2, 50), (3, 999)] 5 (1 / 100) (by decide)

/-! ## C2: `detect_plateau_and_growth` -/

/-- C2: the cli.py variant returns `(False, 0.0)` on fewer than 3 points (a
definite zero, not an absent sentinel); otherwise it sorts the series by date
(a permutation of the input, sorted ascending), fits the OLS line over 0-based
indices, classifies plateau exactly when `abs(slope) < 0.01`, and returns
`growth_per_month = slope * 4`. -/
theorem detect_plateau_and_growth_spec (ts : List (ℤ × ℚ)) :
    (ts.length < 3 → detect_plateau_and_growth ts = (false, 0))
      ∧ (3 ≤ ts.length →
          detect_plateau_and_growth ts
            = (decide (|polyfitSlope ((List.insertionSort dateLe ts).map Prod.snd)| < 1 / 100),
                polyfitSlope ((List.insertionSort dateLe ts).map Prod.snd) * 4))
      ∧ List.Sorted dateLe (List.insertionSort dateLe ts)
      ∧ (List.insertionSort dateLe ts).Perm ts := by
  refine ⟨fun h => by simp [detect_plateau_and_growth, h], fun h => ?_,
    List.sorted_insertionSort dateLe ts, List.perm_insertionSort dateLe ts⟩
  simp [detect_plateau_and_growth, Nat.not_lt.mpr h]

/-- Instantiation of `detect_plateau_and_growth_spec` on a 2-point and a
3-point series: below the minimum the result is `(false, 0)`; on the growing
series the slope is 2 so the result is `(false, 8)`. -/
theorem detect_plateau_and_growth_spec_witness :
    detect_plateau_and_growth tsShort = (false, 0)
      ∧ detect_plateau_and_growth tsGrow
          = (decide (|polyfitSlope ((List.insertionSort dateLe tsGrow).map Prod.snd)| < 1 / 100),
              polyfitSlope ((List.insertionSort dateLe tsGrow).map Prod.snd) * 4)
      ∧ detect_plateau_and_growth tsGrow = (false, 8) :=
  ⟨(detect_plateau_and_growth_spec tsShort).1 (by decide),
   (detect_plateau_and_growth_spec tsGrow).2.1 (by decide),
   by norm_num [detect_plateau_and_growth, tsGrow, List.insertionSort, List.orderedInsert,
     dateLe, polyfitSlope, sX, sXX, sY, sXY, Finset.sum_range_succ]⟩

/-! ## C4: the best-set selector -/

theorem maxStep_exists (acc : Option ℚ) (x : ℚ) :
    ∃ m, maxStep acc x = some m ∧ x ≤ m ∧ (∀ b, acc = some b → b ≤ m)
      ∧ (acc = some m ∨ m = x) := by
  cases acc with
  | none => exact ⟨x, rfl, le_refl x, by simp, Or.inr rfl⟩
  | some b =>
    by_cases h : b < x
    · exact ⟨x, by simp [maxStep, h], le_refl x,
        fun c hc => by cases hc; exact le_of_lt h, Or.inr rfl⟩
    · exact ⟨b, by simp [maxStep, h], le_of_not_lt h,
        fun c hc => by cases hc; exact le_refl b, Or.inl rfl⟩

/-- Running-maximum fold: the result is `none` only from nothing, and any
produced value is a member of the inputs that dominates all of them. -/
theorem foldl_maxStep_spec (l : List ℚ) (acc : Option ℚ) :
    (l.foldl maxStep acc = none ↔ acc = none ∧ l = [])
      ∧ ∀ v, l.foldl maxStep acc = some v →
          (acc = some v ∨ v ∈ l) ∧ (∀ x ∈ l, x ≤ v) ∧ ∀ b, acc = some b → b ≤ v := by
  induction l generalizing acc with
  | nil =>
    refine ⟨by simp, fun v hv => ?_⟩
    simp only [List.foldl_nil] at hv
    refine ⟨Or.inl hv, by simp, fun b hb => ?_⟩
    rw [hv] at hb
    exact le_of_eq (Option.some.inj hb).symm
  | cons x xs ih =>
    obtain ⟨m, hm, hxm, haccm, hwhere⟩ := maxStep_exists acc x
    simp only [List.foldl_cons, hm]
    refine ⟨?_, ?_⟩
    · rw [(ih (some m)).1]
      simp
    · intro v hv
      obtain ⟨hmem, hle, hacc⟩ := (ih (some m)).2 v hv
      have hmv : m ≤ v := hacc m rfl
      refine ⟨?_, ?_, fun b hb => le_trans (haccm b hb) hmv⟩
      · rcases hmem with h | h
        · have hmveq : m = v := Option.some.inj h
          rcases hwhere with h2 | h2
          · exact Or.inl (by rw [h2, hmveq])
          · exact Or.inr (by rw [← hmveq, h2]; exact List.mem_cons_self x xs)
        · exact Or.inr (List.mem_cons_of_mem x h)
      · intro y hy
        rcases List.mem_cons.mp hy with h | h
        · exact h ▸ le_trans hxm hmv
        · exact hle y h

theorem bestFoldSet_eq_maxStep (acc : Option ℚ) (s : SetEntry) :
    bestFoldSet acc s = maxStep acc (estimate_1rm s.weight s.reps) := by
  cases acc <;> rfl

theorem foldl_bestFoldSet_eq (l : List SetEntry) (acc : Option ℚ) :
    l.foldl bestFoldSet acc
      = (l.map (fun s => estimate_1rm s.weight s.reps)).foldl maxStep acc := by
  induction l generalizing acc with
  | nil => rfl
  | cons s ss ih =>
    simp only [List.foldl_cons, List.map_cons, bestFoldSet_eq_maxStep]
    exact ih _

/-- The nested exercise/set loops of `best_1rm_for_workout` compute the
running maximum of exactly the matching estimates, in program order. -/
theorem foldl_bestFoldExercise_eq (exs : List ExerciseEntry) (name : String) (acc : Option ℚ) :
    exs.foldl (bestFoldExercise name) acc
      = ((exs.filter (fun e => strToLower e.exercise_name == strToLower name)).flatMap
          (fun e => e.sets.map (fun s => estimate_1rm s.weight s.reps))).foldl maxStep acc := by
  induction exs generalizing acc with
  | nil => rfl
  | cons e es ih =>
    by_cases h : strToLower e.exercise_name = strToLower name
    · have hb : (strToLower e.exercise_name == strToLower name) = true := beq_iff_eq.mpr h
      have he : bestFoldExercise name acc e = e.sets.foldl bestFoldSet acc := by
        simp [bestFoldExercise, h]
      simp only [List.foldl_cons, List.filter_cons, hb, if_true, List.flatMap_cons,
        List.foldl_append, he, ih, foldl_bestFoldSet_eq]
    · have hb : (strToLower e.exercise_name == strToLower name) = false := by
        simp only [beq_eq_false_iff_ne, ne_eq]
        exact h
      have he : bestFoldExercise name acc e = acc := by
        simp [bestFoldExercise, h]
      simp only [List.foldl_cons, List.filter_cons, hb, Bool.false_eq_true, if_false, he]
      exact ih acc

/-- C4: `best_1rm_for_workout` returns the maximum Epley estimate over all
sets of all exercise entries whose name equals the query after lowercasing
both sides (exact match), and returns `None` (not a numeric zero) exactly when
no entry matches or every matching entry has an empty set list. -/
theorem best_1rm_for_workout_spec (w : Workout) (name : String) :
    (best_1rm_for_workout w name = none ↔
        ∀ e ∈ w.exercises, strToLower e.exercise_name = strToLower name → e.sets = [])
      ∧ ∀ v : ℚ, best_1rm_for_workout w name = some v →
          v ∈ matchingEsts w name ∧ ∀ x ∈ matchingEsts w name, x ≤ v := by
  have hb : best_1rm_for_workout w name = (matchingEsts w name).foldl maxStep none :=
    foldl_bestFoldExercise_eq w.exercises name none
  constructor
  · rw [hb, (foldl_maxStep_spec _ _).1]
    simp only [true_and, matchingEsts, List.flatMap_eq_nil_iff, List.mem_filter,
      List.map_eq_nil_iff, and_imp, beq_iff_eq]
  · intro v hv
    rw [hb] at hv
    obtain ⟨hmem, hle, _⟩ := (foldl_maxStep_spec (matchingEsts w name) none).2 v hv
    exact ⟨hmem.resolve_left (by simp), hle⟩

/-- Instantiation of `best_1rm_for_workout_spec`: in `wBench` the query
"bench press" (case-insensitive) selects the 110 kg × 3 set, estimate 121. -/
theorem best_1rm_for_workout_spec_witness :
    best_1rm_for_workout wBench "bench press" = some 121
      ∧ (121 : ℚ) ∈ matchingEsts wBench "bench press"
      ∧ ∀ x ∈ matchingEsts wBench "bench press", x ≤ 121 := by
  have hval : best_1rm_for_workout wBench "bench press" = some 121 := by
    have hs : strToLower "Bench Press" = strToLower "bench press" := by decide
    simp [best_1rm_for_workout, wBench, exBench, bestFoldExercise, hs, bestFoldSet,
      estimate_1rm]
    norm_num
  have h := (best_1rm_for_workout_spec wBench "bench press").2 121 hval
  exact ⟨hval, h.1, h.2⟩

/-! ## C3: the time-series builder -/

theorem filter_orderedInsert_of_eq (p : ℤ × ℚ) (l : List (ℤ × ℚ)) (d : ℤ) (hp : p.1 = d) :
    (List.orderedInsert dateLe p l).filter (fun q => decide (q.1 = d))
      = p :: l.filter (fun q => decide (q.1 = d)) := by
  induction l with
  | nil => simp [List.orderedInsert, hp]
  | cons q rest ih =>
    by_cases h : dateLe p q
    · simp [List.orderedInsert, h, hp]
    · have hq : ¬ q.1 = d := by
        intro hqd
        exact h (le_of_eq (by rw [hp, hqd]))
      simp [List.orderedInsert, h, hq, ih]

theorem filter_orderedInsert_of_ne (p : ℤ × ℚ) (l : List (ℤ × ℚ)) (d : ℤ) (hp : ¬ p.1 = d) :
    (List.orderedInsert dateLe p l).filter (fun q => decide (q.1 = d))
      = l.filter (fun q => decide (q.1 = d)) := by
  induction l with
  | nil => simp [List.orderedInsert, hp]
  | cons q rest ih =>
    by_cases h : dateLe p q
    · simp [List.orderedInsert, h, hp]
    · simp [List.orderedInsert, h, List.filter_cons, ih]

/-- Stability of the date sort: filtering the sorted series at any single
date gives exactly the points of that date in their original order. -/
theorem filter_insertionSort_dateLe (l : List (ℤ × ℚ)) (d : ℤ) :
    (List.insertionSort dateLe l).filter (fun q => decide (q.1 = d))
      = l.filter (fun q => decide (q.1 = d)) := by
  induction l with
  | nil => rfl
  | cons p rest ih =>
    rw [List.insertionSort]
    by_cases hp : p.1 = d
    · rw [filter_orderedInsert_of_eq p _ d hp, ih]
      simp [hp]
    · rw [filter_orderedInsert_of_ne p _ d hp, ih]
      simp [hp]

theorem rawStep_eq (parse : String → ℤ) (name : String) (acc : List (ℤ × ℚ)) (w : Workout) :
    rawStep parse name acc w = acc ++ (seriesPoint parse name w).toList := by
  unfold rawStep seriesPoint
  cases best_1rm_for_workout w name with
  | none => simp
  | some v =>
    by_cases h : v = 0
    · simp [h]
    · simp [h]

theorem foldl_rawStep_eq (parse : String → ℤ) (name : String) (ws : List Workout)
    (acc : List (ℤ × ℚ)) :
    ws.foldl (rawStep parse name) acc = acc ++ ws.filterMap (seriesPoint parse name) := by
  induction ws generalizing acc with
  | nil => simp
  | cons w rest ih =>
    rw [List.foldl_cons, ih, rawStep_eq, List.filterMap_cons]
    cases seriesPoint parse name w <;> simp

/-- C3: the series is sorted ascending by date and the sort is stable
(points of equal dates keep their input order, which is workout input order
since the unsorted series is a `filterMap` over the workouts); a workout whose
best-set result is absent or zero contributes no point, and if no workout has
a matching exercise the result is the empty sequence. -/
theorem get_1rm_timeseries_spec (parse : String → ℤ) (ws : List Workout) (name : String) :
    List.Sorted dateLe (get_1rm_timeseries parse ws name)
      ∧ (∀ d : ℤ, (get_1rm_timeseries parse ws name).filter (fun q => decide (q.1 = d))
            = (rawSeries parse ws name).filter (fun q => decide (q.1 = d)))
      ∧ rawSeries parse ws name = ws.filterMap (seriesPoint parse name)
      ∧ (∀ w : Workout,
            best_1rm_for_workout w name = none ∨ best_1rm_for_workout w name = some 0 →
            seriesPoint parse name w = none)
      ∧ ((∀ w ∈ ws, ∀ e ∈ w.exercises, ¬ strToLower e.exercise_name = strToLower name) →
            get_1rm_timeseries parse ws name = []) := by
  refine ⟨List.sorted_insertionSort dateLe _,
    fun d => filter_insertionSort_dateLe _ d,
    foldl_rawStep_eq parse name ws [],
    ?_, ?_⟩
  · rintro w (h | h) <;> simp [seriesPoint, h]
  · intro hno
    have hraw : rawSeries parse ws name = [] := by
      rw [rawSeries, foldl_rawStep_eq parse name ws []]
      simp only [List.nil_append, List.filterMap_eq_nil_iff]
      intro w hw
      have hbest : best_1rm_for_workout w name = none :=
        (best_1rm_for_workout_spec w name).1.mpr
          (fun e he hm => absurd hm (hno w hw e he))
      simp [seriesPoint, hbest]
    rw [get_1rm_timeseries, hraw]
    rfl

/-- Instantiation of `get_1rm_timeseries_spec`: a query matching no exercise
of any workout yields the empty series. -/
theorem get_1rm_timeseries_spec_witness :
    get_1rm_timeseries (fun _ => 0) [wBench] "squat" = [] :=
  (get_1rm_timeseries_spec (fun _ => 0) [wBench] "squat").2.2.2.2 (by decide)

/-! ## The degree-1 least-squares fit -/

theorem sX_succ (k : ℕ) : sX (k + 1) = sX k + (k : ℚ) := by
  rw [sX, sX, Finset.sum_range_succ]

theorem sXX_succ (k : ℕ) : sXX (k + 1) = sXX k + (k : ℚ) ^ 2 := by
  rw [sXX, sXX, Finset.sum_range_succ]

theorem sX_mul_two (n : ℕ) : 2 * sX n = (n : ℚ) * ((n : ℚ) - 1) := by
  induction n with
  | zero => simp [sX]
  | succ k ih =>
    rw [sX_succ]
    push_cast
    push_cast at ih
    nlinarith [ih]

theorem sXX_mul_six (n : ℕ) : 6 * sXX n = (n : ℚ) * ((n : ℚ) - 1) * (2 * (n : ℚ) - 1) := by
  induction n with
  | zero => simp [sXX]
  | succ k ih =>
    rw [sXX_succ]
    push_cast
    push_cast at ih
    nlinarith [ih]

theorem denom_eq (n : ℕ) :
    12 * ((n : ℚ) * sXX n - sX n ^ 2) = (n : ℚ) ^ 2 * ((n : ℚ) ^ 2 - 1) := by
  have h1 := sX_mul_two n
  have h2 := sXX_mul_six n
  have e1 : sX n = (n : ℚ) * ((n : ℚ) - 1) / 2 := by linarith
  have e2 : sXX n = (n : ℚ) * ((n : ℚ) - 1) * (2 * (n : ℚ) - 1) / 6 := by linarith
  rw [e1, e2]
  ring

theorem denom_pos (n : ℕ) (hn : 2 ≤ n) : 0 < (n : ℚ) * sXX n - sX n ^ 2 := by
  have h := denom_eq n
  have hq : (2 : ℚ) ≤ (n : ℚ) := by exact_mod_cast hn
  have h4 : (4 : ℚ) ≤ (n : ℚ) ^ 2 := by nlinarith
  have hprod : 0 ≤ ((n : ℚ) ^ 2 - 4) * ((n : ℚ) ^ 2 + 3) :=
    mul_nonneg (by linarith) (by linarith)
  nlinarith [h, hprod]

theorem getD_eq_of_mem_const (ys : List ℚ) (c : ℚ) (h : ∀ y ∈ ys, y = c)
    (i : ℕ) (hi : i < ys.length) : ys.getD i 0 = c := by
  rw [List.getD_eq_getElem?_getD, List.getElem?_eq_getElem hi]
  exact h _ (List.getElem_mem hi)

theorem sY_const (ys : List ℚ) (c : ℚ) (h : ∀ y ∈ ys, y = c) :
    sY ys = (ys.length : ℚ) * c := by
  rw [sY]
  rw [Finset.sum_congr rfl
    (fun i hi => getD_eq_of_mem_const ys c h i (Finset.mem_range.mp hi))]
  simp [Finset.sum_const, Finset.card_range, mul_comm]

theorem sXY_const (ys : List ℚ) (c : ℚ) (h : ∀ y ∈ ys, y = c) :
    sXY ys = c * sX ys.length := by
  rw [sXY, sX, Finset.mul_sum]
  exact Finset.sum_congr rfl fun i hi => by
    rw [getD_eq_of_mem_const ys c h i (Finset.mem_range.mp hi)]
    ring

/-- A constant series has least-squares slope 0 (even without the `n ≥ 2`
nondegeneracy condition, since `0 / 0 = 0` in `ℚ`). -/
theorem polyfitSlope_const (ys : List ℚ) (c : ℚ) (h : ∀ y ∈ ys, y = c) :
    polyfitSlope ys = 0 := by
  rw [polyfitSlope, sY_const ys c h, sXY_const ys c h]
  rw [show (ys.length : ℚ) * (c * sX ys.length) - sX ys.length * ((ys.length : ℚ) * c) = 0
    from by ring]
  exact zero_div _

/-- First normal equation: the residuals of the fitted line sum to zero. -/
theorem res_sum_eq_zero (ys : List ℚ) (hn : 2 ≤ ys.length) :
    ∑ i ∈ Finset.range ys.length,
      (ys.getD i 0 - (polyfitSlope ys * (i : ℚ) + polyfitIntercept ys)) = 0 := by
  have hn0 : (ys.length : ℚ) ≠ 0 := by
    have : (0 : ℚ) < (ys.length : ℚ) := by exact_mod_cast Nat.lt_of_lt_of_le Nat.zero_lt_two hn
    exact ne_of_gt this
  have hsplit : ∑ i ∈ Finset.range ys.length,
      (ys.getD i 0 - (polyfitSlope ys * (i : ℚ) + polyfitIntercept ys))
      = sY ys - (polyfitSlope ys * sX ys.length
          + (ys.length : ℚ) * polyfitIntercept ys) := by
    rw [Finset.sum_sub_distrib, Finset.sum_add_distrib, ← Finset.mul_sum, Finset.sum_const,
      Finset.card_range, nsmul_eq_mul, sY, sX]
  rw [hsplit, polyfitIntercept]
  field_simp

/-- Second normal equation: the index-weighted residuals sum to zero. -/
theorem res_xsum_eq_zero (ys : List ℚ) (hn : 2 ≤ ys.length) :
    ∑ i ∈ Finset.range ys.length,
      (i : ℚ) * (ys.getD i 0 - (polyfitSlope ys * (i : ℚ) + polyfitIntercept ys)) = 0 := by
  have hn0 : (ys.length : ℚ) ≠ 0 := by
    have : (0 : ℚ) < (ys.length : ℚ) := by exact_mod_cast Nat.lt_of_lt_of_le Nat.zero_lt_two hn
    exact ne_of_gt this
  have hden : (ys.length : ℚ) * sXX ys.length - sX ys.length ^ 2 ≠ 0 :=
    ne_of_gt (denom_pos ys.length hn)
  have hsplit : ∑ i ∈ Finset.range ys.length,
      (i : ℚ) * (ys.getD i 0 - (polyfitSlope ys * (i : ℚ) + polyfitIntercept ys))
      = sXY ys - (polyfitSlope ys * sXX ys.length + polyfitIntercept ys * sX ys.length) := by
    rw [show (fun i : ℕ => (i : ℚ) * (ys.getD i 0
          - (polyfitSlope ys * (i : ℚ) + polyfitIntercept ys)))
        = fun i : ℕ => (i : ℚ) * ys.getD i 0
          - (polyfitSlope ys * (i : ℚ) ^ 2 + polyfitIntercept ys * (i : ℚ))
      from funext fun i => by ring]
    rw [Finset.sum_sub_distrib, Finset.sum_add_distrib, ← Finset.mul_sum, ← Finset.mul_sum,
      sXY, sXX, sX]
  rw [hsplit, polyfitIntercept, polyfitSlope]
  field_simp
  ring

/-- Minimality: `polyfitSlope`/`polyfitIntercept` genuinely are the ordinary least-squares
fit: no line has a smaller sum of squared errors. -/
theorem sse_polyfit_min (ys : List ℚ) (hn : 2 ≤ ys.length) (a b : ℚ) :
    sse ys (polyfitSlope ys) (polyfitIntercept ys) ≤ sse ys a b := by
  have key : sse ys a b = sse ys (polyfitSlope ys) (polyfitIntercept ys)
      + ∑ i ∈ Finset.range ys.length,
          ((polyfitSlope ys - a) * (i : ℚ) + (polyfitIntercept ys - b)) ^ 2
      + 2 * (polyfitSlope ys - a)
          * (∑ i ∈ Finset.range ys.length,
              (i : ℚ) * (ys.getD i 0 - (polyfitSlope ys * (i : ℚ) + polyfitIntercept ys)))
      + 2 * (polyfitIntercept ys - b)
          * (∑ i ∈ Finset.range ys.length,
              (ys.getD i 0 - (polyfitSlope ys * (i : ℚ) + polyfitIntercept ys))) := by
    rw [sse, sse, Finset.mul_sum, Finset.mul_sum, ← Finset.sum_add_distrib,
      ← Finset.sum_add_distrib, ← Finset.sum_add_distrib]
    exact Finset.sum_congr rfl fun i _ => by ring
  rw [key, res_sum_eq_zero ys hn, res_xsum_eq_zero ys hn]
  have hsq : 0 ≤ ∑ i ∈ Finset.range ys.length,
      ((polyfitSlope ys - a) * (i : ℚ) + (polyfitIntercept ys - b)) ^ 2 :=
    Finset.sum_nonneg fun i _ => sq_nonneg _
  linarith

/-- C1: with at least `min_points` entries (and at least 2, so the fit is
nondegenerate), `detect_plateau` returns `(slope < slope_threshold, slope)`
where `slope` is the slope of the ordinary least-squares line over 0-based
indices (witnessed by `sse`-minimality of the fitted line); a perfectly flat
series yields `(true, 0)`, a slope above the threshold yields `false` with a
positive slope, and a negative slope is still classified as a plateau. -/
theorem detect_plateau_ols_spec (ts : List (ℤ × ℚ)) (mp : ℕ) (thr : ℚ)
    (hmp : mp ≤ ts.length) (hlen : 2 ≤ ts.length) :
    detect_plateau ts mp thr
        = (decide (polyfitSlope (ts.map Prod.snd) < thr),
            some (polyfitSlope (ts.map Prod.snd)))
      ∧ (∀ a b : ℚ,
          sse (ts.map Prod.snd) (polyfitSlope (ts.map Prod.snd))
              (polyfitIntercept (ts.map Prod.snd))
            ≤ sse (ts.map Prod.snd) a b)
      ∧ (∀ c : ℚ, (∀ p ∈ ts, p.2 = c) → 0 < thr →
          detect_plateau ts mp thr = (true, some 0))
      ∧ (thr < polyfitSlope (ts.map Prod.snd) →
          detect_plateau ts mp thr = (false, some (polyfitSlope (ts.map Prod.snd)))
            ∧ (0 < thr → 0 < polyfitSlope (ts.map Prod.snd)))
      ∧ (polyfitSlope (ts.map Prod.snd) < 0 → 0 < thr →
          detect_plateau ts mp thr = (true, some (polyfitSlope (ts.map Prod.snd)))) := by
  have hnot : ¬ ts.length < mp := Nat.not_lt.mpr hmp
  have h1 : detect_plateau ts mp thr
      = (decide (polyfitSlope (ts.map Prod.snd) < thr),
          some (polyfitSlope (ts.map Prod.snd))) := by
    simp [detect_plateau, hnot]
  have hlen2 : 2 ≤ (ts.map Prod.snd).length := by simpa using hlen
  refine ⟨h1, fun a b => sse_polyfit_min _ hlen2 a b, ?_, ?_, ?_⟩
  · intro c hc hthr
    have hs : polyfitSlope (ts.map Prod.snd) = 0 := by
      refine polyfitSlope_const _ c fun y hy => ?_
      obtain ⟨p, hp, rfl⟩ := List.mem_map.mp hy
      exact hc p hp
    rw [h1, hs]
    simp [hthr]
  · intro h4
    refine ⟨?_, fun hthr => lt_trans hthr h4⟩
    rw [h1]
    simp [not_lt.mpr (le_of_lt h4)]
  · intro h5 hthr
    rw [h1]
    simp [lt_trans h5 hthr]

/-- Instantiation of `detect_plateau_ols_spec` on the flat five-point series
`tsFlat`: the result is `(true, some 0)`. -/
theorem detect_plateau_ols_spec_witness :
    detect_plateau tsFlat 5 (1 / 100) = (true, some 0) := by
  have h := detect_plateau_ols_spec tsFlat 5 (1 / 100) (by decide) (by decide)
  exact h.2.2.1 5 (by norm_num [tsFlat]) (by norm_num)

/-! ## Dictionary lemmas for the muscle-group aggregation -/

theorem lookupMD_updateMD_same (st : List (String × MuscleData)) (m : String)
    (f : MuscleData → MuscleData) :
    lookupMD (updateMD st m f) m = some (f (getMD st m)) := by
  induction st with
  | nil => simp [updateMD, lookupMD, getMD]
  | cons kv rest ih =>
    obtain ⟨k, v⟩ := kv
    by_cases h : k = m
    · simp [updateMD, lookupMD, h, getMD]
    · simp [updateMD, lookupMD, h, getMD, ih]

theorem lookupMD_updateMD_ne (st : List (String × MuscleData)) (m m' : String)
    (f : MuscleData → MuscleData) (h : ¬ m = m') :
    lookupMD (updateMD st m f) m' = lookupMD st m' := by
  induction st with
  | nil => simp [updateMD, lookupMD, h]
  | cons kv rest ih =>
    obtain ⟨k, v⟩ := kv
    by_cases hk : k = m
    · subst hk
      simp [updateMD, lookupMD, h]
    · simp [updateMD, lookupMD, hk, ih]

theorem getMD_updateMD_same (st : List (String × MuscleData)) (m : String)
    (f : MuscleData → MuscleData) : getMD (updateMD st m f) m = f (getMD st m) := by
  rw [getMD, lookupMD_updateMD_same]
  rfl

theorem getMD_updateMD_ne (st : List (String × MuscleData)) (m m' : String)
    (f : MuscleData → MuscleData) (h : ¬ m = m') :
    getMD (updateMD st m f) m' = getMD st m' := by
  rw [getMD, lookupMD_updateMD_ne st m m' f h]
  rfl

theorem totalVolumeOf_updateMD_preserve (st : List (String × MuscleData)) (m m' : String)
    (f : MuscleData → MuscleData) (hf : ∀ md, (f md).total_volume = md.total_volume) :
    totalVolumeOf (updateMD st m f) m' = totalVolumeOf st m' := by
  by_cases h : m = m'
  · subst h
    rw [totalVolumeOf, getMD_updateMD_same, hf, totalVolumeOf]
  · rw [totalVolumeOf, getMD_updateMD_ne st m m' f h, totalVolumeOf]

theorem mem_keysOf_updateMD (st : List (String × MuscleData)) (m m' : String)
    (f : MuscleData → MuscleData) :
    m' ∈ keysOf (updateMD st m f) ↔ m' ∈ keysOf st ∨ m' = m := by
  induction st with
  | nil => simp [updateMD, keysOf]
  | cons kv rest ih =>
    obtain ⟨k, v⟩ := kv
    by_cases hk : k = m
    · subst hk
      simp [updateMD, keysOf]
      tauto
    · simp [updateMD, keysOf, hk] at ih ⊢
      tauto

/-! ## Total-volume bookkeeping through the aggregation loops -/

theorem processSet_fst (mu nm : String) (acc : List (String × MuscleData) × ℚ) (s : SetEntry) :
    (processSet mu nm acc s).1
      = updateMD (updateMD (updateMD acc.1 mu
          (fun md => { md with total_volume := md.total_volume + setVolume s })) mu
          (fun md => { md with
            exercises := appendEx md.exercises nm (estimate_1rm s.weight s.reps) })) mu
          (fun md => if md.max_1rm < estimate_1rm s.weight s.reps
            then { md with max_1rm := estimate_1rm s.weight s.reps } else md) := rfl

theorem totalVolumeOf_processSet (mu nm : String) (acc : List (String × MuscleData) × ℚ)
    (s : SetEntry) (m : String) :
    totalVolumeOf (processSet mu nm acc s).1 m
      = totalVolumeOf acc.1 m + (if mu = m then setVolume s else 0) := by
  rw [processSet_fst]
  rw [totalVolumeOf_updateMD_preserve _ mu m
    (fun md => if md.max_1rm < estimate_1rm s.weight s.reps
      then { md with max_1rm := estimate_1rm s.weight s.reps } else md)
    (fun md => by by_cases h : md.max_1rm < estimate_1rm s.weight s.reps <;> simp [h])]
  rw [totalVolumeOf_updateMD_preserve _ mu m
    (fun md => { md with
      exercises := appendEx md.exercises nm (estimate_1rm s.weight s.reps) })
    (fun md => rfl)]
  by_cases h : mu = m
  · subst h
    rw [totalVolumeOf, getMD_updateMD_same, if_pos rfl]
    rfl
  · rw [totalVolumeOf, getMD_updateMD_ne _ _ _ _ h, if_neg h, add_zero, totalVolumeOf]

theorem totalVolumeOf_foldl_processSet (mu nm : String) (sets : List SetEntry)
    (acc : List (String × MuscleData) × ℚ) (m : String) :
    totalVolumeOf (sets.foldl (processSet mu nm) acc).1 m
      = totalVolumeOf acc.1 m + (if mu = m then (sets.map setVolume).sum else 0) := by
  induction sets generalizing acc with
  | nil => simp
  | cons s ss ih =>
    rw [List.foldl_cons, ih, totalVolumeOf_processSet]
    by_cases h : mu = m
    · simp only [if_pos h, List.map_cons, List.sum_cons]
      ring
    · simp [h]

theorem processExercise_eq (d : ℤ) (st : List (String × MuscleData)) (e : ExerciseEntry) :
    processExercise d st e =
      if 0 < (e.sets.foldl (processSet e.muscle_group e.exercise_name) (st, 0)).2 then
        updateMD (e.sets.foldl (processSet e.muscle_group e.exercise_name) (st, 0)).1
          e.muscle_group
          (fun md => { md with one_rm_timeseries := md.one_rm_timeseries
            ++ [(d, (e.sets.foldl (processSet e.muscle_group e.exercise_name) (st, 0)).2)] })
      else (e.sets.foldl (processSet e.muscle_group e.exercise_name) (st, 0)).1 := rfl

theorem totalVolumeOf_processExercise (d : ℤ) (st : List (String × MuscleData))
    (e : ExerciseEntry) (m : String) :
    totalVolumeOf (processExercise d st e) m
      = totalVolumeOf st m
        + (if e.muscle_group = m then (e.sets.map setVolume).sum else 0) := by
  rw [processExercise_eq]
  by_cases h : 0 < (e.sets.foldl (processSet e.muscle_group e.exercise_name) (st, 0)).2
  · rw [if_pos h, totalVolumeOf_updateMD_preserve _ e.muscle_group m
      (fun md => { md with one_rm_timeseries := md.one_rm_timeseries
        ++ [(d, (e.sets.foldl (processSet e.muscle_group e.exercise_name) (st, 0)).2)] })
      (fun md => rfl),
      totalVolumeOf_foldl_processSet]
  · rw [if_neg h, totalVolumeOf_foldl_processSet]

theorem totalVolumeOf_foldl_processExercise (d : ℤ) (exs : List ExerciseEntry)
    (st : List (String × MuscleData)) (m : String) :
    totalVolumeOf (exs.foldl (processExercise d) st) m
      = totalVolumeOf st m
        + (exs.map (fun e =>
            if e.muscle_group = m then (e.sets.map setVolume).sum else 0)).sum := by
  induction exs generalizing st with
  | nil => simp
  | cons e es ih =>
    rw [List.foldl_cons, ih, totalVolumeOf_processExercise, List.map_cons, List.sum_cons]
    ring

theorem totalVolumeOf_processWorkout (parse : String → Option ℤ)
    (st : List (String × MuscleData)) (w : Workout) (m : String) :
    totalVolumeOf (processWorkout parse st w) m
      = totalVolumeOf st m
        + (if (parse w.workout_date).isSome then workoutVolume m w else 0) := by
  unfold processWorkout
  cases hp : parse w.workout_date with
  | none => simp [hp]
  | some d => simp [hp, totalVolumeOf_foldl_processExercise, workoutVolume]

theorem totalVolumeOf_foldl_processWorkout (parse : String → Option ℤ) (ws : List Workout)
    (st : List (String × MuscleData)) (m : String) :
    totalVolumeOf (ws.foldl (processWorkout parse) st) m
      = totalVolumeOf st m
        + (ws.map (fun w =>
            if (parse w.workout_date).isSome then workoutVolume m w else 0)).sum := by
  induction ws generalizing st with
  | nil => simp
  | cons w rest ih =>
    rw [List.foldl_cons, ih, totalVolumeOf_processWorkout, List.map_cons, List.sum_cons]
    ring

theorem totalVolumeOf_aggregate (parse : String → Option ℤ) (ws : List Workout) (m : String) :
    totalVolumeOf (aggregateByMuscle parse ws) m
      = (ws.map (fun w =>
          if (parse w.workout_date).isSome then workoutVolume m w else 0)).sum := by
  rw [aggregateByMuscle, totalVolumeOf_foldl_processWorkout]
  simp [totalVolumeOf, getMD, lookupMD, emptyMuscleData]

/-! ## Key-presence bookkeeping through the aggregation loops -/

theorem mem_keysOf_processSet (mu nm : String) (acc : List (String × MuscleData) × ℚ)
    (s : SetEntry) (m : String) :
    m ∈ keysOf (processSet mu nm acc s).1 ↔ m ∈ keysOf acc.1 ∨ m = mu := by
  rw [processSet_fst]
  simp only [mem_keysOf_updateMD]
  tauto

theorem mem_keysOf_foldl_processSet (mu nm : String) (sets : List SetEntry)
    (acc : List (String × MuscleData) × ℚ) (m : String) :
    m ∈ keysOf (sets.foldl (processSet mu nm) acc).1
      ↔ m ∈ keysOf acc.1 ∨ (sets ≠ [] ∧ m = mu) := by
  induction sets generalizing acc with
  | nil => simp
  | cons s ss ih =>
    rw [List.foldl_cons, ih, mem_keysOf_processSet]
    constructor
    · rintro ((h | h) | ⟨-, h⟩)
      · exact Or.inl h
      · exact Or.inr ⟨List.cons_ne_nil s ss, h⟩
      · exact Or.inr ⟨List.cons_ne_nil s ss, h⟩
    · rintro (h | ⟨-, h⟩)
      · exact Or.inl (Or.inl h)
      · exact Or.inl (Or.inr h)

theorem mem_keysOf_processExercise (d : ℤ) (st : List (String × MuscleData))
    (e : ExerciseEntry) (m : String) :
    m ∈ keysOf (processExercise d st e)
      ↔ m ∈ keysOf st ∨ (e.sets ≠ [] ∧ m = e.muscle_group) := by
  rw [processExercise_eq]
  rcases eq_or_ne e.sets [] with hs | hs
  · rw [hs]
    simp
  · by_cases h : 0 < (e.sets.foldl (processSet e.muscle_group e.exercise_name) (st, 0)).2
    · rw [if_pos h, mem_keysOf_updateMD, mem_keysOf_foldl_processSet]
      constructor
      · rintro ((h1 | ⟨-, h1⟩) | h1)
        · exact Or.inl h1
        · exact Or.inr ⟨hs, h1⟩
        · exact Or.inr ⟨hs, h1⟩
      · rintro (h1 | ⟨-, h1⟩)
        · exact Or.inl (Or.inl h1)
        · exact Or.inr h1
    · rw [if_neg h, mem_keysOf_foldl_processSet]

theorem mem_keysOf_foldl_processExercise (d : ℤ) (exs : List ExerciseEntry)
    (st : List (String × MuscleData)) (m : String) :
    m ∈ keysOf (exs.foldl (processExercise d) st)
      ↔ m ∈ keysOf st ∨ ∃ e ∈ exs, e.muscle_group = m ∧ e.sets ≠ [] := by
  induction exs generalizing st with
  | nil => simp
  | cons e es ih =>
    rw [List.foldl_cons, ih, mem_keysOf_processExercise]
    constructor
    · rintro ((h | ⟨hne, h⟩) | ⟨e', he', h⟩)
      · exact Or.inl h
      · exact Or.inr ⟨e, List.mem_cons_self e es, h.symm, hne⟩
      · exact Or.inr ⟨e', List.mem_cons_of_mem e he', h⟩
    · rintro (h | ⟨e', he', hP⟩)
      · exact Or.inl (Or.inl h)
      · rcases List.mem_cons.mp he' with rfl | he2
        · exact Or.inl (Or.inr ⟨hP.2, hP.1.symm⟩)
        · exact Or.inr ⟨e', he2, hP⟩

theorem mem_keysOf_processWorkout (parse : String → Option ℤ)
    (st : List (String × MuscleData)) (w : Workout) (m : String) :
    m ∈ keysOf (processWorkout parse st w)
      ↔ m ∈ keysOf st
        ∨ ((parse w.workout_date).isSome
            ∧ ∃ e ∈ w.exercises, e.muscle_group = m ∧ e.sets ≠ []) := by
  unfold processWorkout
  cases hp : parse w.workout_date with
  | none => simp [hp]
  | some d =>
    simp only [hp, Option.isSome_some, true_and]
    exact mem_keysOf_foldl_processExercise d w.exercises st m

theorem mem_keysOf_foldl_processWorkout (parse : String → Option ℤ) (ws : List Workout)
    (st : List (String × MuscleData)) (m : String) :
    m ∈ keysOf (ws.foldl (processWorkout parse) st)
      ↔ m ∈ keysOf st
        ∨ ∃ w ∈ ws, (parse w.workout_date).isSome
            ∧ ∃ e ∈ w.exercises, e.muscle_group = m ∧ e.sets ≠ [] := by
  induction ws generalizing st with
  | nil => simp
  | cons w rest ih =>
    rw [List.foldl_cons, ih, mem_keysOf_processWorkout]
    constructor
    · rintro ((h | h) | ⟨w', hw', h⟩)
      · exact Or.inl h
      · exact Or.inr ⟨w, List.mem_cons_self w rest, h⟩
      · exact Or.inr ⟨w', List.mem_cons_of_mem w hw', h⟩
    · rintro (h | ⟨w', hw', hP⟩)
      · exact Or.inl (Or.inl h)
      · rcases List.mem_cons.mp hw' with rfl | hw2
        · exact Or.inl (Or.inr hP)
        · exact Or.inr ⟨w', hw2, hP⟩

/-! ## C7, C8, C10: the muscle-group volume aggregation -/

/-- C7: when every stored date parses, the aggregation assigns to each muscle
group the sum of `weight * reps` over every set of every exercise entry tagged
(verbatim, case-sensitively) with that muscle group; accumulated volumes are
nonnegative for nonnegative inputs, and a set with zero weight or zero reps
contributes zero volume. -/
theorem aggregate_volume_spec (parse : String → Option ℤ) (ws : List Workout)
    (hparse : ∀ w ∈ ws, (parse w.workout_date).isSome) :
    (∀ m : String, totalVolumeOf (aggregateByMuscle parse ws) m = specVolume ws m)
      ∧ ((∀ w ∈ ws, ∀ e ∈ w.exercises, ∀ s ∈ e.sets, 0 ≤ s.weight ∧ 0 ≤ s.reps) →
          ∀ m : String, 0 ≤ totalVolumeOf (aggregateByMuscle parse ws) m)
      ∧ (∀ s : SetEntry, s.weight = 0 ∨ s.reps = 0 → setVolume s = 0) := by
  have h1 : ∀ m, totalVolumeOf (aggregateByMuscle parse ws) m = specVolume ws m := by
    intro m
    rw [totalVolumeOf_aggregate, specVolume]
    refine congrArg List.sum (List.map_congr_left fun w hw => ?_)
    rw [if_pos (hparse w hw)]
  refine ⟨h1, ?_, ?_⟩
  · intro hnn m
    rw [h1 m, specVolume]
    refine List.sum_nonneg fun x hx => ?_
    obtain ⟨w, hw, rfl⟩ := List.mem_map.mp hx
    rw [workoutVolume]
    refine List.sum_nonneg fun y hy => ?_
    obtain ⟨e, he, rfl⟩ := List.mem_map.mp hy
    by_cases hmu : e.muscle_group = m
    · rw [if_pos hmu]
      refine List.sum_nonneg fun z hz => ?_
      obtain ⟨s, hs, rfl⟩ := List.mem_map.mp hz
      obtain ⟨hwt, hrp⟩ := hnn w hw e he s hs
      have hr : (0 : ℚ) ≤ (s.reps : ℚ) := by exact_mod_cast hrp
      exact mul_nonneg hwt hr
    · rw [if_neg hmu]
  · rintro s (h | h) <;> simp [setVolume, h]

/-- Instantiation of `aggregate_volume_spec`: a single 100 kg × 10 set under
muscle group "Legs" yields total volume 1000 for "Legs". -/
theorem aggregate_volume_spec_witness :
    totalVolumeOf (aggregateByMuscle parseAll [wLegs]) "Legs" = specVolume [wLegs] "Legs"
      ∧ specVolume [wLegs] "Legs" = 1000 := by
  refine ⟨(aggregate_volume_spec parseAll [wLegs] (by simp [parseAll])).1 "Legs", ?_⟩
  norm_num [specVolume, workoutVolume, wLegs, setVolume]

/-- C8 is false as stated: this workout's only set has zero weight, yet the
aggregation dictionary contains an entry for "Legs" (created by the
`defaultdict` on first access inside the set loop) whose total volume is 0. -/
theorem aggregate_zero_volume_key_counterexample :
    "Legs" ∈ keysOf (aggregateByMuscle parseAll [wLegsZero])
      ∧ totalVolumeOf (aggregateByMuscle parseAll [wLegsZero]) "Legs" = 0 := by
  constructor
  · norm_num [aggregateByMuscle, processWorkout, processExercise, processSet, setVolume,
      estimate_1rm, updateMD, keysOf, appendEx, emptyMuscleData, parseAll, wLegsZero]
  · rw [totalVolumeOf_aggregate]
    norm_num [workoutVolume, wLegsZero, setVolume, parseAll]

/-- C8 amended: the mapping contains an entry for a muscle group exactly when
some exercise entry tagged with it (in a workout whose date parses) has at
least one set; an entry whose sets all have zero volume keeps total volume 0,
so zero-volume entries can occur. -/
theorem aggregate_keys_iff (parse : String → Option ℤ) (ws : List Workout) (m : String) :
    m ∈ keysOf (aggregateByMuscle parse ws)
      ↔ ∃ w ∈ ws, (parse w.workout_date).isSome
          ∧ ∃ e ∈ w.exercises, e.muscle_group = m ∧ e.sets ≠ [] := by
  rw [aggregateByMuscle, mem_keysOf_foldl_processWorkout]
  simp [keysOf]

/-- Instantiation of `aggregate_keys_iff`: the zero-weight set still creates
the "Legs" key. -/
theorem aggregate_keys_iff_witness :
    "Legs" ∈ keysOf (aggregateByMuscle parseAll [wLegsZero]) := by
  refine (aggregate_keys_iff parseAll [wLegsZero] "Legs").mpr
    ⟨wLegsZero, List.mem_cons_self wLegsZero [], by simp [parseAll], ?_⟩
  refine ⟨{ exercise_name := "Squat", muscle_group := "Legs",
            sets := [{ reps := 5, weight := 0 }] }, ?_, rfl, by simp⟩
  simp [wLegsZero]

/-- C10: a workout whose stored date string fails to parse is skipped in its
entirety — the whole aggregation state (volumes, per-exercise 1RM lists, max
1RMs, and time-series) equals the one computed from only the workouts whose
dates parse. -/
theorem aggregate_skips_unparseable (parse : String → Option ℤ) (ws : List Workout) :
    aggregateByMuscle parse ws
      = aggregateByMuscle parse (ws.filter (fun w => (parse w.workout_date).isSome)) := by
  unfold aggregateByMuscle
  suffices h : ∀ st : List (String × MuscleData), ws.foldl (processWorkout parse) st
      = (ws.filter (fun w => (parse w.workout_date).isSome)).foldl (processWorkout parse) st
    from h []
  induction ws with
  | nil => intro st; rfl
  | cons w rest ih =>
    intro st
    rw [List.foldl_cons, List.filter_cons]
    cases hp : parse w.workout_date with
    | none =>
      have hw : processWorkout parse st w = st := by simp [processWorkout, hp]
      simp [hp, hw, ih st]
    | some d =>
      simp only [hp, Option.isSome_some, if_true, List.foldl_cons]
      exact ih _

end WorkoutTracker
